import Mathlib

/-!
Verification development for the OpenFold Evoformer/IPA core
(openfold/model/dropout.py, evoformer_block.py, evoformer_stack.py,
invariant_point_attention.py).

Modelling conventions:
* Tensors are total functions from natural-number indices to real values;
  a tensor of a given shape is only inspected at in-range indices.  The
  leading batch dimension is kept where the source keeps it.
* PyTorch broadcasting of a size-1 axis is realised by evaluating the
  broadcast tensor at index 0 of that axis.
* Floating-point arithmetic is idealised as exact real arithmetic.
* Randomness (the Bernoulli draws inside `torch.nn.functional.dropout`)
  is an explicit oracle `keep` passed to the functions that consume it.
* Python `assert` raises `AssertionError` with no message; failure is
  modelled as `Except.error none` with the error payload being the
  optional assertion message (`Option String`).
* The dropout probability `p` is a Python float used only in comparisons
  and in the scale `1/(1-p)`; it is modelled as a rational so that the
  constructor's range check is executable.  Note that for `p = 1` the
  Lean convention `(1 - 1)⁻¹ = 0` coincides with PyTorch's behaviour of
  zeroing every element.
-/

noncomputable section

/-- Rank-4 tensor (e.g. `m : [batch, N_seq, N_res, c_m]`). -/
abbrev Tensor4 : Type := ℕ → ℕ → ℕ → ℕ → ℝ

/-- Rank-3 tensor (e.g. `msa_mask : [batch, N_seq, N_res]`). -/
abbrev Tensor3 : Type := ℕ → ℕ → ℕ → ℝ

/-- Python `AssertionError`: an optional message (a bare `assert` carries
none). -/
abbrev AssertionError : Type := Option String

/-! ## dropout.py -/

/-- State of a constructed `Dropout` module: dropout rate `p`, the
dimensions `share_dim` along which the mask is shared (Python axis
indices, possibly negative), and the `inplace` flag. -/
structure DropoutCfg where
  p : ℚ
  shareDim : List Int
  inplace : Bool

/-- `Dropout.__init__`: `assert 0.0 <= p <= 1.0`, then store the fields.
An `int` `share_dim` is wrapped into a one-element tuple by the source;
callers of this model pass the resulting list directly.  The failing
assert is a bare `assert`, hence `Except.error none`. -/
def dropoutInit (p : ℚ) (shareDim : List Int) (inplace : Bool) :
    Except AssertionError DropoutCfg :=
  if 0 ≤ p ∧ p ≤ 1 then Except.ok ⟨p, shareDim, inplace⟩ else Except.error none

/-- Normalise a Python axis index for a rank-4 tensor: negative axes
count from the end (`-1` is the last axis). -/
def pyAxis4 (d : Int) : Int := if d < 0 then d + 4 else d

/-- Whether rank-4 axis `k` is one of the shared (`share_dim`) axes. -/
def isSharedAxis (shareDim : List Int) (k : ℕ) : Bool :=
  (shareDim.map pyAxis4).contains (k : Int)

/-- `torch.nn.functional.dropout` on a rank-4 tensor, with the Bernoulli
draws supplied by the oracle `keep`.  In training mode each element is
kept (and scaled by `1/(1-p)`) where `keep` is true and zeroed
otherwise; out of training mode the input is returned unchanged.  The
`inplace` flag does not affect the computed values.  (`p = 1` zeroes
everything: `(1 - 1)⁻¹ = 0`.) -/
def functionalDropout (p : ℚ) (training : Bool) (keep : ℕ → ℕ → ℕ → ℕ → Bool)
    (x : Tensor4) : Tensor4 :=
  if training then
    fun b s r c => if keep b s r c then x b s r c * ((1 : ℝ) - (p : ℝ))⁻¹ else 0
  else x

/-- `_mul_add_eager(x, mask, y) = y + x * mask`.  The compiled variant
`_mul_add_jit = torch.compile(_mul_add_eager)` computes the same
function, and `_mul_add` merely dispatches between the two based on the
inductor flags, so all three are modelled by this one definition. -/
def mulAddEager (x mask y : Tensor4) : Tensor4 :=
  fun b s r c => y b s r c + x b s r c * mask b s r c

/-- Distributed (DAP) context: group size and this worker's rank. -/
structure DapCtx where
  size : ℕ
  rank : ℕ

/-- Modelled from the spec: the distributed-parallel service's
`scatter(tensor, axis)` (module `openfold.dynamic_axial_parallelism`,
not under `src/`) splits the named axis across the group; worker `rank`
receives the contiguous shard of length `shardLen` starting at
`rank * shardLen`, so local index `i` reads global index
`rank * shardLen + i`. -/
def dapScatter4 (dap : DapCtx) (d shardLen : ℕ) (t : Tensor4) : Tensor4 :=
  fun b s r c =>
    t (if d = 0 then dap.rank * shardLen + b else b)
      (if d = 1 then dap.rank * shardLen + s else s)
      (if d = 2 then dap.rank * shardLen + r else r)
      (if d = 3 then dap.rank * shardLen + c else c)

/-- Size of axis `d` of a rank-4 shape `[B, S, R, C]`. -/
def shapeAt (B S R C : ℕ) (d : ℕ) : ℕ :=
  if d = 0 then B else if d = 1 then S else if d = 2 then R else C

/-- The index at which a broadcast against the shared-axis-collapsed mask
reads the mask: shared axes are collapsed to size 1, so broadcasting
evaluates the mask at index 0 there. -/
def maskBroadcast (shareDim : List Int) (mask : Tensor4) : Tensor4 :=
  fun b s r c =>
    mask (if isSharedAxis shareDim 0 then 0 else b)
      (if isSharedAxis shareDim 1 then 0 else s)
      (if isSharedAxis shareDim 2 then 0 else r)
      (if isSharedAxis shareDim 3 then 0 else c)

/-- `Dropout.forward(x, add_output_to, dap_scattered_dim)` on a rank-4
input of shape `[B, S, R, C]`:
1. `shape = list(x.shape)` with every `share_dim` axis set to 1 (realised
   here by broadcasting, i.e. by `maskBroadcast`), and, when
   `dap_scattered_dim` is given, that axis widened by the group size
   (realised here by the `keep` oracle being indexed by the global,
   pre-shard mask index);
2. `mask = x.new_ones(shape)` then `F.dropout(mask, p, training, inplace)`;
3. when `dap_scattered_dim` is given, `mask = dap.scatter(mask, dim)`;
4. return `_mul_add(x, mask, add_output_to) = add_output_to + x * mask`. -/
def dropoutForward (cfg : DropoutCfg) (training : Bool)
    (keep : ℕ → ℕ → ℕ → ℕ → Bool) (B S R C : ℕ) (x y : Tensor4)
    (dapDim : Option ℕ) (dap : DapCtx) : Tensor4 :=
  let mask : Tensor4 := functionalDropout cfg.p training keep (fun _ _ _ _ => 1)
  let mask : Tensor4 :=
    match dapDim with
    | none => mask
    | some d => dapScatter4 dap d (shapeAt B S R C d) mask
  mulAddEager x (maskBroadcast cfg.shareDim mask) y

/-- `DropoutRowwise` configuration: `Dropout(p=p, share_dim=-3)`. -/
def dropoutRowwiseCfg (p : ℚ) : DropoutCfg := ⟨p, [-3], false⟩

/-- `DropoutColumnwise` configuration: `Dropout(p=p, share_dim=-2)`. -/
def dropoutColumnwiseCfg (p : ℚ) : DropoutCfg := ⟨p, [-2], false⟩

/-- The multiplicative factor the row-wise shared dropout mask applies to
every element of row-axis slice `(b, ·, r, c)` of a rank-4 tensor. -/
def rowwiseMaskValue (p : ℚ) (training : Bool)
    (keep : ℕ → ℕ → ℕ → ℕ → Bool) (b r c : ℕ) : ℝ :=
  if training then (if keep b 0 r c then ((1 : ℝ) - (p : ℝ))⁻¹ else 0) else 1

/-- Helper: `dropoutForward` with the row-wise configuration and no DAP
scattering multiplies `x` elementwise by `rowwiseMaskValue`, which does
not depend on the sequence-axis index. -/
theorem dropoutForward_rowwise_eq (p : ℚ) (training : Bool)
    (keep : ℕ → ℕ → ℕ → ℕ → Bool) (B S R C : ℕ) (x y : Tensor4)
    (dap : DapCtx) (b s r c : ℕ) :
    dropoutForward (dropoutRowwiseCfg p) training keep B S R C x y none dap b s r c
      = y b s r c + x b s r c * rowwiseMaskValue p training keep b r c := by
  cases training <;>
    simp [dropoutForward, dropoutRowwiseCfg, rowwiseMaskValue, mulAddEager,
      maskBroadcast, isSharedAxis, functionalDropout, pyAxis4]

/-- C4: for every tensor `x`, every `add_output_to` of the same shape,
and every configuration (any `p`, any shared axes, any DAP dimension,
any randomness oracle), `Dropout.forward` in inference (non-training)
mode returns exactly `add_output_to + x`. -/
theorem dropout_inference_identity (cfg : DropoutCfg)
    (keep : ℕ → ℕ → ℕ → ℕ → Bool) (B S R C : ℕ) (x y : Tensor4)
    (dapDim : Option ℕ) (dap : DapCtx) (b s r c : ℕ) :
    dropoutForward cfg false keep B S R C x y dapDim dap b s r c
      = y b s r c + x b s r c := by
  cases dapDim <;>
    simp [dropoutForward, functionalDropout, mulAddEager, maskBroadcast,
      dapScatter4]

/-- C6: in training mode, for every rank-4 input, the mask applied by
`DropoutRowwise` is constant along axis `-3` (the sequence/row axis):
for each `(b, r, c)` there is a single factor, either `0` or
`1/(1-p)`, multiplied into `x` at every sequence index `s`. -/
theorem dropout_rowwise_shared_mask (p : ℚ)
    (keep : ℕ → ℕ → ℕ → ℕ → Bool) (B S R C : ℕ) (x y : Tensor4)
    (dap : DapCtx) (b r c : ℕ) :
    ∃ mv : ℝ, (mv = 0 ∨ mv = ((1 : ℝ) - (p : ℝ))⁻¹) ∧
      ∀ s : ℕ,
        dropoutForward (dropoutRowwiseCfg p) true keep B S R C x y none dap b s r c
          = y b s r c + x b s r c * mv := by
  refine ⟨rowwiseMaskValue p true keep b r c, ?_, fun s => ?_⟩
  · by_cases hk : keep b 0 r c = true <;> simp [rowwiseMaskValue, hk]
  · exact dropoutForward_rowwise_eq p true keep B S R C x y dap b s r c

/-- C8 counterexample: for `p = 2` (outside `[0, 1]`) construction fails
via the bare `assert 0.0 <= p <= 1.0`, whose `AssertionError` carries no
message, so the offending value is not reported. -/
theorem dropoutInit_no_value_reported :
    dropoutInit 2 [] false = Except.error none ∧
      ∀ msg : String, dropoutInit 2 [] false ≠ Except.error (some msg) := by
  constructor
  · norm_num [dropoutInit]
  · intro msg h
    rw [show dropoutInit 2 [] false = Except.error none by norm_num [dropoutInit]] at h
    simp at h

/-- C8 (amended): constructing `Dropout` with `p` outside `[0, 1]` fails
immediately and fatally at construction via a bare assertion (whose
error carries no message, hence not the offending value); for every `p`
with `0 ≤ p ≤ 1` construction succeeds. -/
theorem dropoutInit_range_check (p : ℚ) (sd : List Int) (ip : Bool) :
    ((∃ cfg : DropoutCfg, dropoutInit p sd ip = Except.ok cfg) ↔
      (0 ≤ p ∧ p ≤ 1)) ∧
    (¬ (0 ≤ p ∧ p ≤ 1) → dropoutInit p sd ip = Except.error none) := by
  unfold dropoutInit
  by_cases h : 0 ≤ p ∧ p ≤ 1 <;> simp [h]

/-- C8 witness: the amended theorem applied at `p = 2`. -/
theorem dropoutInit_range_check_witness :
    dropoutInit 2 [] false = Except.error none :=
  (dropoutInit_range_check 2 [] false).2 (by norm_num)

/-! ### Heap-level model of `Dropout.forward` (for the frame property)

Python tensors are references; `F.dropout(..., inplace=True)` mutates
its argument.  To state what `forward` does and does not mutate, the
tensor operations are replayed over an explicit heap of tensors: ids
below `fresh` are the caller's live tensors, allocations take the next
fresh id. -/

structure Heap where
  store : ℕ → Tensor4
  fresh : ℕ

/-- Allocate a fresh tensor holding `v`; returns the new heap and id. -/
def heapAlloc (h : Heap) (v : Tensor4) : Heap × ℕ :=
  (⟨fun i => if i = h.fresh then v else h.store i, h.fresh + 1⟩, h.fresh)

/-- `x.new_ones(shape)`: allocates a fresh all-ones tensor. -/
def newOnesSt (h : Heap) : Heap × ℕ := heapAlloc h (fun _ _ _ _ => 1)

/-- `F.dropout(·, p, training, inplace)` at the heap level: with
`inplace=True` the result overwrites the argument tensor in place (and
the argument id is returned); otherwise a fresh tensor is allocated. -/
def functionalDropoutSt (p : ℚ) (training inplace : Bool)
    (keep : ℕ → ℕ → ℕ → ℕ → Bool) (h : Heap) (tid : ℕ) : Heap × ℕ :=
  let v := functionalDropout p training keep (h.store tid)
  if inplace then (⟨fun i => if i = tid then v else h.store i, h.fresh⟩, tid)
  else heapAlloc h v

/-- `dap.scatter` at the heap level: the collective materialises a fresh
output tensor. -/
def dapScatterSt (dap : DapCtx) (d shardLen : ℕ) (h : Heap) (tid : ℕ) :
    Heap × ℕ :=
  heapAlloc h (dapScatter4 dap d shardLen (h.store tid))

/-- `Dropout.forward` at the heap level, mirroring `dropoutForward`:
allocate the ones mask, run `F.dropout` on it (in place only on the
mask, when requested), optionally `dap.scatter` it, then `_mul_add`
reads `x`, the mask and `add_output_to` and allocates the result. -/
def dropoutForwardSt (cfg : DropoutCfg) (training : Bool)
    (keep : ℕ → ℕ → ℕ → ℕ → Bool) (B S R C : ℕ) (h : Heap) (xid yid : ℕ)
    (dapDim : Option ℕ) (dap : DapCtx) : Heap × ℕ :=
  let hm := newOnesSt h
  let hm2 := functionalDropoutSt cfg.p training cfg.inplace keep hm.1 hm.2
  let hm3 :=
    match dapDim with
    | none => hm2
    | some d => dapScatterSt dap d (shapeAt B S R C d) hm2.1 hm2.2
  heapAlloc hm3.1
    (mulAddEager (hm3.1.store xid)
      (maskBroadcast cfg.shareDim (hm3.1.store hm3.2)) (hm3.1.store yid))

/-- C9: `Dropout.forward` never mutates its inputs `x` and
`add_output_to`, regardless of the `inplace` flag: after the call (for
any training mode, randomness, sharing and DAP configuration) the
caller's tensors hold their prior values; `inplace` only affects the
internally allocated mask. -/
theorem dropout_forward_no_mutation (cfg : DropoutCfg) (training : Bool)
    (keep : ℕ → ℕ → ℕ → ℕ → Bool) (B S R C : ℕ) (h : Heap) (xid yid : ℕ)
    (dapDim : Option ℕ) (dap : DapCtx)
    (hx : xid < h.fresh) (hy : yid < h.fresh) :
    (dropoutForwardSt cfg training keep B S R C h xid yid dapDim dap).1.store xid
        = h.store xid ∧
      (dropoutForwardSt cfg training keep B S R C h xid yid dapDim dap).1.store yid
        = h.store yid := by
  have key : ∀ i, i < h.fresh →
      (dropoutForwardSt cfg training keep B S R C h xid yid dapDim dap).1.store i
        = h.store i := by
    intro i hi
    obtain ⟨p, sd, ip⟩ := cfg
    have h1 : i ≠ h.fresh := Nat.ne_of_lt hi
    have h2 : i ≠ h.fresh + 1 := by omega
    have h3 : i ≠ h.fresh + 2 := by omega
    have h4 : i ≠ h.fresh + 1 + 1 + 1 := by omega
    cases ip <;> cases dapDim <;>
      simp_all [dropoutForwardSt, newOnesSt, functionalDropoutSt,
        dapScatterSt, heapAlloc]
  exact ⟨key xid hx, key yid hy⟩

/-- C9 witness: the frame theorem applied to a concrete two-tensor heap. -/
theorem dropout_forward_no_mutation_witness :
    (dropoutForwardSt (dropoutRowwiseCfg (1/2)) true (fun _ _ _ _ => true)
          1 1 1 1 ⟨fun _ => fun _ _ _ _ => 0, 2⟩ 0 1 none ⟨1, 0⟩).1.store 0
        = (⟨fun _ => fun _ _ _ _ => 0, 2⟩ : Heap).store 0 ∧
      (dropoutForwardSt (dropoutRowwiseCfg (1/2)) true (fun _ _ _ _ => true)
          1 1 1 1 ⟨fun _ => fun _ _ _ _ => 0, 2⟩ 0 1 none ⟨1, 0⟩).1.store 1
        = (⟨fun _ => fun _ _ _ _ => 0, 2⟩ : Heap).store 1 :=
  dropout_forward_no_mutation (dropoutRowwiseCfg (1/2)) true
    (fun _ _ _ _ => true) 1 1 1 1 ⟨fun _ => fun _ _ _ _ => 0, 2⟩ 0 1 none ⟨1, 0⟩
    (by norm_num) (by norm_num)

/-! ## evoformer_block.py

The row/column MSA attention modules and the Evoformer block core are
external collaborators (their modules are not part of this core); they
enter the model as opaque function parameters.  The DAP collectives
`dap.scatter` on masks and `dap.row_to_col` are likewise opaque. -/

/-- `MSARowAttentionWithPairBias.forward(m, z, mask)`. -/
abbrev MsaRowAttFn : Type := Tensor4 → Tensor4 → Tensor3 → Tensor4

/-- `MSAColumnAttention.forward(m, mask)`. -/
abbrev MsaColAttFn : Type := Tensor4 → Tensor3 → Tensor4

/-- `EvoformerBlockCore.forward(m, z, msa_mask, pair_mask)`. -/
abbrev CoreFn : Type := Tensor4 → Tensor4 → Tensor3 → Tensor3 → Tensor4 × Tensor4

/-- `EvoformerBlock.forward(m, z, msa_mask, pair_mask)`.  With DAP
enabled the MSA mask is resharded row-wise and column-wise, the
row-attention residual passes through the shared row-wise dropout, `m`
is relaid out row-to-column before column attention; without DAP the
same sequence runs minus the collectives.  Either way the result of the
core on `(m, z, msa_mask, pair_mask)` is returned.  `[B, S, R, Cm]` is
the shape of `m`. -/
def evoformerBlockForward (attRow : MsaRowAttFn) (attCol : MsaColAttFn)
    (core : CoreFn) (msaDropoutP : ℚ) (training : Bool)
    (keep : ℕ → ℕ → ℕ → ℕ → Bool) (dapEnabled : Bool)
    (dapScatter3 : Tensor3 → ℕ → Tensor3) (rowToCol : Tensor4 → Tensor4)
    (B S R Cm : ℕ) (dap : DapCtx) (m z : Tensor4) (msaMask pairMask : Tensor3) :
    Tensor4 × Tensor4 :=
  if dapEnabled then
    let msaMaskRow := dapScatter3 msaMask 1
    let msaMaskCol := dapScatter3 msaMask 2
    let m1 := dropoutForward (dropoutRowwiseCfg msaDropoutP) training keep
      B S R Cm (attRow m z msaMaskRow) m none dap
    let m2 := rowToCol m1
    let m3 := attCol m2 msaMaskCol
    core m3 z msaMask pairMask
  else
    let m1 := dropoutForward (dropoutRowwiseCfg msaDropoutP) training keep
      B S R Cm (attRow m z msaMask) m none dap
    let m2 := attCol m1 msaMask
    core m2 z msaMask pairMask

/-- C5: `EvoformerBlock.forward` (single-process execution) performs,
in this order: row MSA attention on `m` biased by `z`, whose result is
added into `m` through the row-wise shared-mask dropout (one factor per
`(b, r, c)`, constant along the sequence axis); then column MSA
attention, whose result updates `m` with no further dropout; then the
core collaborator on `(m, z, msa_mask, pair_mask)`, whose result pair
is returned. -/
theorem evoformer_block_order (attRow : MsaRowAttFn) (attCol : MsaColAttFn)
    (core : CoreFn) (p : ℚ) (training : Bool) (keep : ℕ → ℕ → ℕ → ℕ → Bool)
    (dapScatter3 : Tensor3 → ℕ → Tensor3) (rowToCol : Tensor4 → Tensor4)
    (B S R Cm : ℕ) (dap : DapCtx) (m z : Tensor4) (mm pm : Tensor3) :
    evoformerBlockForward attRow attCol core p training keep false
        dapScatter3 rowToCol B S R Cm dap m z mm pm
      = core
          (attCol
            (fun b s r c =>
              m b s r c +
                attRow m z mm b s r c * rowwiseMaskValue p training keep b r c)
            mm)
          z mm pm := by
  have hx : dropoutForward (dropoutRowwiseCfg p) training keep B S R Cm
      (attRow m z mm) m none dap
      = fun b s r c =>
          m b s r c +
            attRow m z mm b s r c * rowwiseMaskValue p training keep b r c := by
    funext b s r c
    exact dropoutForward_rowwise_eq p training keep B S R Cm (attRow m z mm) m
      dap b s r c
  simp [evoformerBlockForward, hx]

/-! ## evoformer_stack.py -/

/-- A constructed Evoformer block as called by the stack. -/
abbrev BlockFn : Type := Tensor4 → Tensor4 → Tensor3 → Tensor3 → Tensor4 × Tensor4

/-- `EvoformerStack._forward_blocks`: optional DAP scatter of `m`, `z`
along dim 1, sequential application of the blocks threading the same
masks, optional DAP gather. -/
def evoformerStackBlocks (blocks : List BlockFn) (dapEnabled : Bool)
    (scat gath : Tensor4 → ℕ → Tensor4) (m z : Tensor4) (mm pm : Tensor3) :
    Tensor4 × Tensor4 :=
  let mz0 := if dapEnabled then (scat m 1, scat z 1) else (m, z)
  let mz := blocks.foldl (fun mz blk => blk mz.1 mz.2 mm pm) mz0
  if dapEnabled then (gath mz.1 1, gath mz.2 1) else mz

/-- Modelled from the spec: `torch.utils.checkpoint.checkpoint` (the
recomputation service; not under `src/`) executes the given block
function now and re-executes it on demand during the gradient pass
instead of retaining activations; its forward outputs are exactly the
function's outputs. -/
def gradientCheckpointingFn (f : Tensor4 → Tensor4 → Tensor4 × Tensor4)
    (m z : Tensor4) : Tensor4 × Tensor4 := f m z

/-- `EvoformerStack._forward_blocks_with_gradient_checkpointing`: the
blocks are partially applied to the masks, then applied in sequence
through the recomputation wrapper, with the same optional DAP
scatter/gather as the direct strategy. -/
def evoformerStackBlocksGC (blocks : List BlockFn) (dapEnabled : Bool)
    (scat gath : Tensor4 → ℕ → Tensor4) (m z : Tensor4) (mm pm : Tensor3) :
    Tensor4 × Tensor4 :=
  let blocksP := blocks.map (fun blk => fun (m z : Tensor4) => blk m z mm pm)
  let mz0 := if dapEnabled then (scat m 1, scat z 1) else (m, z)
  let mz := blocksP.foldl (fun mz blk => gradientCheckpointingFn blk mz.1 mz.2) mz0
  if dapEnabled then (gath mz.1 1, gath mz.2 1) else mz

/-- `s = self.linear(m[:, 0, :, :])`: learned projection of sequence row
0 of the MSA representation (input width `c_m`). -/
def stackLinearS (w : ℕ → ℕ → ℝ) (bias : ℕ → ℝ) (cm : ℕ) (m : Tensor4) :
    Tensor3 :=
  fun b i d => (∑ dd ∈ Finset.range cm, w d dd * m b 0 i dd) + bias d

/-- `EvoformerStack.forward`: with `gradient_checkpointing=True` it first
asserts `torch.is_grad_enabled()` (bare assert) and uses the
recomputation strategy, otherwise the direct strategy; then projects
`m[:, 0]` to the single representation `s` and returns `(m, z, s)`. -/
def evoformerStackForward (blocks : List BlockFn) (w : ℕ → ℕ → ℝ)
    (bias : ℕ → ℝ) (cm : ℕ) (dapEnabled : Bool)
    (scat gath : Tensor4 → ℕ → Tensor4) (m z : Tensor4) (mm pm : Tensor3)
    (gradientCheckpointing gradEnabled : Bool) :
    Except AssertionError (Tensor4 × Tensor4 × Tensor3) :=
  if gradientCheckpointing then
    if gradEnabled then
      let mz := evoformerStackBlocksGC blocks dapEnabled scat gath m z mm pm
      Except.ok (mz.1, mz.2, stackLinearS w bias cm mz.1)
    else Except.error none
  else
    let mz := evoformerStackBlocks blocks dapEnabled scat gath m z mm pm
    Except.ok (mz.1, mz.2, stackLinearS w bias cm mz.1)

/-- C3: for identical inputs (and the identical per-call randomness
inside the blocks, i.e. disabled/fixed randomness), `EvoformerStack.forward`
with the recomputation strategy produces exactly the same `(m, z, s)`
as with the direct strategy. -/
theorem evoformer_stack_checkpointing_equiv (blocks : List BlockFn)
    (w : ℕ → ℕ → ℝ) (bias : ℕ → ℝ) (cm : ℕ) (dapEnabled : Bool)
    (scat gath : Tensor4 → ℕ → Tensor4) (m z : Tensor4) (mm pm : Tensor3) :
    evoformerStackForward blocks w bias cm dapEnabled scat gath m z mm pm true true
      = evoformerStackForward blocks w bias cm dapEnabled scat gath m z mm pm
          false true := by
  unfold evoformerStackForward evoformerStackBlocksGC evoformerStackBlocks
    gradientCheckpointingFn
  simp [List.foldl_map]

/-- C10: calling `EvoformerStack.forward` with
`gradient_checkpointing=True` while gradient computation is disabled
fails immediately on the bare `assert torch.is_grad_enabled()`; with
`gradient_checkpointing=False` the call succeeds regardless of whether
gradients are enabled. -/
theorem evoformer_stack_grad_assert (blocks : List BlockFn) (w : ℕ → ℕ → ℝ)
    (bias : ℕ → ℝ) (cm : ℕ) (dapEnabled : Bool)
    (scat gath : Tensor4 → ℕ → Tensor4) (m z : Tensor4) (mm pm : Tensor3) :
    (evoformerStackForward blocks w bias cm dapEnabled scat gath m z mm pm
        true false = Except.error none) ∧
      ∀ ge : Bool, ∃ out,
        evoformerStackForward blocks w bias cm dapEnabled scat gath m z mm pm
          false ge = Except.ok out := by
  exact ⟨rfl, fun ge => ⟨_, rfl⟩⟩

/-! ## invariant_point_attention.py

The batch dimension is dropped here: every operation in the module acts
elementwise over it.  `s : [N_res, c_s]` becomes `ℕ → ℕ → ℝ`,
`z : [N_res, N_res, c_z]` becomes `ℕ → ℕ → ℕ → ℝ`, `mask : [N_res]`
becomes `ℕ → ℝ`, and the per-residue rigid frames become
`ℕ → RigidT`. -/

/-- Rank-2 tensor (single batch element of `s`). -/
abbrev Mat2 : Type := ℕ → ℕ → ℝ

/-- Modelled from the spec: a rigid transform of the rigid-transform
service (`openfold.rigid_utils.Rigid`, not under `src/`): a rotation
(3×3 matrix) plus a translation. -/
structure RigidT where
  rot : Matrix (Fin 3) (Fin 3) ℝ
  trans : Fin 3 → ℝ

/-- Modelled from the spec: `Rigid.apply`, local → global:
`p ↦ rot · p + trans`. -/
def RigidT.apply (g : RigidT) (p : Fin 3 → ℝ) : Fin 3 → ℝ :=
  g.rot.mulVec p + g.trans

/-- Modelled from the spec: `Rigid.invert_apply` (and its identical
compiled variant `invert_apply_jit`), global → local; the rotation is
inverted by its transpose as in the rotation-matrix implementation:
`p ↦ rotᵀ · (p - trans)`. -/
def RigidT.invertApply (g : RigidT) (p : Fin 3 → ℝ) : Fin 3 → ℝ :=
  g.rot.transpose.mulVec (p - g.trans)

/-- Modelled from the spec: composition of rigid transforms
(`g.compose r`): rotation `g.rot · r.rot`, translation
`g.rot · r.trans + g.trans`, so that applying the composite is applying
`r` then `g`. -/
def RigidT.compose (g r : RigidT) : RigidT :=
  ⟨g.rot * r.rot, g.rot.mulVec r.trans + g.trans⟩

/-- Hyperparameters and learned parameters of a constructed
`InvariantPointAttention` module.  Weight matrices are indexed
`[out, in]` as in `F.linear`; flattened output axes follow the source's
`view`/`split`/`stack` conventions spelled out in the projection
definitions below. -/
structure IpaParams where
  cS : ℕ
  cZ : ℕ
  cHidden : ℕ
  numHeads : ℕ
  numQkPoints : ℕ
  numVPoints : ℕ
  inf : ℝ
  eps : ℝ
  wq : ℕ → ℕ → ℝ
  bq : ℕ → ℝ
  wb : ℕ → ℕ → ℝ
  bb : ℕ → ℝ
  wkv : ℕ → ℕ → ℝ
  bkv : ℕ → ℝ
  wqp : ℕ → ℕ → ℝ
  bqp : ℕ → ℝ
  wkvp : ℕ → ℕ → ℝ
  bkvp : ℕ → ℝ
  headWeights : ℕ → ℝ
  wout : ℕ → ℕ → ℝ
  bout : ℕ → ℝ

/-- `F.linear(x, w, b)` on a vector: `o ↦ Σ_d w[o, d] * x[d] + b[o]`. -/
def linearRow (w : ℕ → ℕ → ℝ) (bias : ℕ → ℝ) (inDim : ℕ) (x : ℕ → ℝ)
    (o : ℕ) : ℝ :=
  (∑ d ∈ Finset.range inDim, w o d * x d) + bias o

/-- `q = F.linear(s, w_q, b_q)`: `[N_res, num_heads * c_hidden]`. -/
def ipaQFlat (P : IpaParams) (s : Mat2) (i o : ℕ) : ℝ :=
  linearRow P.wq P.bq P.cS (s i) o

/-- `q.view(..., (num_heads, c_hidden))`: head `h`, channel `c` reads
flat index `h * c_hidden + c`. -/
def ipaQ (P : IpaParams) (s : Mat2) (i h c : ℕ) : ℝ :=
  ipaQFlat P s i (h * P.cHidden + c)

/-- `b = F.linear(z, w_b, b_b)`: `[N_res, N_res, num_heads]`. -/
def ipaBias (P : IpaParams) (z : Tensor3) (i j h : ℕ) : ℝ :=
  linearRow P.wb P.bb P.cZ (z i j) h

/-- `kv = F.linear(s, w_kv, b_kv)`:
`[N_res, num_heads * 2 * c_hidden]`. -/
def ipaKvFlat (P : IpaParams) (s : Mat2) (i o : ℕ) : ℝ :=
  linearRow P.wkv P.bkv P.cS (s i) o

/-- `kv.view(..., (num_heads, 2 * c_hidden))` then
`k, v = torch.split(kv, c_hidden, dim=-1)`: `k` reads the first
`c_hidden` entries of head `h`'s chunk. -/
def ipaK (P : IpaParams) (s : Mat2) (i h c : ℕ) : ℝ :=
  ipaKvFlat P s i (h * (2 * P.cHidden) + c)

/-- The `v` half of the `kv` split: entries `c_hidden + c` of head `h`'s
chunk. -/
def ipaV (P : IpaParams) (s : Mat2) (i h c : ℕ) : ℝ :=
  ipaKvFlat P s i (h * (2 * P.cHidden) + (P.cHidden + c))

/-- `q_pts = F.linear(s, w_q_points, b_q_points)`:
`[N_res, num_heads * num_qk_points * 3]`. -/
def ipaQPtsFlat (P : IpaParams) (s : Mat2) (i o : ℕ) : ℝ :=
  linearRow P.wqp P.bqp P.cS (s i) o

/-- `torch.split(q_pts, q_pts.shape[-1] // 3, dim=-1)` then
`torch.stack(..., dim=-1)`: the local 3D point `u` (of
`num_heads * num_qk_points`, the chunk size `shape[-1] // 3`) has
coordinate `x` at flat index `x * (num_heads * num_qk_points) + u`. -/
def ipaQPtsLocal (P : IpaParams) (s : Mat2) (i u : ℕ) : Fin 3 → ℝ :=
  fun x => ipaQPtsFlat P s i (x.1 * (P.numHeads * P.numQkPoints) + u)

/-- `q_pts = r.unsqueeze(-1).apply(q_pts)`: residue `i`'s rigid frame
applied to each of residue `i`'s own query points. -/
def ipaQPtsGlobal (P : IpaParams) (s : Mat2) (r : ℕ → RigidT) (i u : ℕ) :
    Fin 3 → ℝ :=
  (r i).apply (ipaQPtsLocal P s i u)

/-- `q_pts.view(..., (num_heads, num_qk_points, 3))`: point `p` of head
`h` is flat point `h * num_qk_points + p`. -/
def ipaQPts (P : IpaParams) (s : Mat2) (r : ℕ → RigidT) (i h p : ℕ) :
    Fin 3 → ℝ :=
  ipaQPtsGlobal P s r i (h * P.numQkPoints + p)

/-- `kv_pts = F.linear(s, w_kv_points, b_kv_points)`:
`[N_res, num_heads * (num_qk_points + num_v_points) * 3]`. -/
def ipaKvPtsFlat (P : IpaParams) (s : Mat2) (i o : ℕ) : ℝ :=
  linearRow P.wkvp P.bkvp P.cS (s i) o

/-- `kv_pts` split into 3 coordinate chunks and stacked, as for
`q_pts`, with chunk size `num_heads * (num_qk_points + num_v_points)`. -/
def ipaKvPtsLocal (P : IpaParams) (s : Mat2) (i u : ℕ) : Fin 3 → ℝ :=
  fun x =>
    ipaKvPtsFlat P s i
      (x.1 * (P.numHeads * (P.numQkPoints + P.numVPoints)) + u)

/-- `kv_pts = r[..., None].apply(kv_pts)`. -/
def ipaKvPtsGlobal (P : IpaParams) (s : Mat2) (r : ℕ → RigidT) (i u : ℕ) :
    Fin 3 → ℝ :=
  (r i).apply (ipaKvPtsLocal P s i u)

/-- `kv_pts.view(..., (num_heads, num_qk_points + num_v_points, 3))`
then `k_pts, v_pts = torch.split(kv_pts, (num_qk_points, num_v_points),
dim=-2)`: `k_pts` takes the first `num_qk_points` points of each head's
chunk. -/
def ipaKPts (P : IpaParams) (s : Mat2) (r : ℕ → RigidT) (i h p : ℕ) :
    Fin 3 → ℝ :=
  ipaKvPtsGlobal P s r i (h * (P.numQkPoints + P.numVPoints) + p)

/-- The `v_pts` half of the `kv_pts` split: points
`num_qk_points + p`. -/
def ipaVPts (P : IpaParams) (s : Mat2) (r : ℕ → RigidT) (i h p : ℕ) :
    Fin 3 → ℝ :=
  ipaKvPtsGlobal P s r i
    (h * (P.numQkPoints + P.numVPoints) + (P.numQkPoints + p))

/-- `a = torch.matmul(q.movedim(-3, -2), k.movedim(-3, -1))`:
`a[h, i, j] = Σ_c q[i, h, c] * k[j, h, c]`.  (The autocast-fp16 branch
computes the same product in full precision; exact real arithmetic
makes the two branches identical.) -/
def ipaQK (P : IpaParams) (s : Mat2) (h i j : ℕ) : ℝ :=
  ∑ c ∈ Finset.range P.cHidden, ipaQ P s i h c * ipaK P s j h c

/-- `F.softplus(x) = log(1 + exp x)`. -/
def softplus (x : ℝ) : ℝ := Real.log (1 + Real.exp x)

/-- `pt_att = (q_pts.unsqueeze(-4) - k_pts.unsqueeze(-5)) ** 2` summed
over the unbound coordinate axis:
`Σ_x (q_pts[i, h, p, x] - k_pts[j, h, p, x])²`. -/
def ipaPtAttSum (P : IpaParams) (s : Mat2) (r : ℕ → RigidT)
    (i j h p : ℕ) : ℝ :=
  ∑ x : Fin 3, (ipaQPts P s r i h p x - ipaKPts P s r j h p x) ^ 2

/-- `head_weights = F.softplus(head_weights) *
math.sqrt(1 / (3 * (num_qk_points * 9 / 2)))`. -/
def ipaHeadWeightsScaled (P : IpaParams) (h : ℕ) : ℝ :=
  softplus (P.headWeights h) *
    Real.sqrt (1 / (3 * ((P.numQkPoints : ℝ) * 9 / 2)))

/-- `pt_att = pt_att * head_weights` then
`pt_att = -0.5 * torch.sum(pt_att, dim=-1)` (sum over points). -/
def ipaPtAtt (P : IpaParams) (s : Mat2) (r : ℕ → RigidT) (i j h : ℕ) : ℝ :=
  -0.5 *
    ∑ p ∈ Finset.range P.numQkPoints,
      ipaPtAttSum P s r i j h p * ipaHeadWeightsScaled P h

/-- `square_mask = (mask.unsqueeze(-1) * mask.unsqueeze(-2) - 1) * inf`. -/
def ipaSquareMask (mask : ℕ → ℝ) (infVal : ℝ) (i j : ℕ) : ℝ :=
  (mask i * mask j - 1) * infVal

/-- The pre-softmax attention logits of `_forward_a_eager` (and of its
identical compiled variant `_forward_a_jit`):
`a * sqrt(1/(3*c_hidden)) + sqrt(1/3) * b.movedim(-1, -3)`, plus the
point-distance term, plus the mask bias. -/
def ipaAttLogits (P : IpaParams) (s : Mat2) (z : Tensor3) (r : ℕ → RigidT)
    (mask : ℕ → ℝ) (h i j : ℕ) : ℝ :=
  Real.sqrt (1 / (3 * (P.cHidden : ℝ))) * ipaQK P s h i j
    + Real.sqrt (1 / 3) * ipaBias P z i j h
    + ipaPtAtt P s r i j h
    + ipaSquareMask mask P.inf i j

/-- `a = torch.softmax(a, dim=-1)`: row softmax over key positions. -/
def ipaAtt (P : IpaParams) (N : ℕ) (s : Mat2) (z : Tensor3)
    (r : ℕ → RigidT) (mask : ℕ → ℝ) (h i j : ℕ) : ℝ :=
  Real.exp (ipaAttLogits P s z r mask h i j) /
    ∑ l ∈ Finset.range N, Real.exp (ipaAttLogits P s z r mask h i l)

/-- `o = torch.matmul(a, v.transpose(-2, -3)).transpose(-2, -3)`:
`o[i, h, c] = Σ_j a[h, i, j] * v[j, h, c]`. -/
def ipaO (P : IpaParams) (N : ℕ) (s : Mat2) (z : Tensor3)
    (r : ℕ → RigidT) (mask : ℕ → ℝ) (i h c : ℕ) : ℝ :=
  ∑ j ∈ Finset.range N, ipaAtt P N s z r mask h i j * ipaV P s j h c

/-- `o_pt = torch.sum(a[..., None, :, :, None] * v_pts[...], dim=-2)`
(after the `swapdims`/`movedim` bookkeeping):
`o_pt[i, h, p, x] = Σ_j a[h, i, j] * v_pts[j, h, p, x]` — the weighted
sum of the globally-framed value points. -/
def ipaOPtGlobal (P : IpaParams) (N : ℕ) (s : Mat2) (z : Tensor3)
    (r : ℕ → RigidT) (mask : ℕ → ℝ) (i h p : ℕ) : Fin 3 → ℝ :=
  fun x =>
    ∑ j ∈ Finset.range N, ipaAtt P N s z r mask h i j * ipaVPts P s r j h p x

/-- `o_pt = r.unsqueeze(-1).unsqueeze(-2).invert_apply_jit(o_pt)`:
back into residue `i`'s own local frame. -/
def ipaOPtLocal (P : IpaParams) (N : ℕ) (s : Mat2) (z : Tensor3)
    (r : ℕ → RigidT) (mask : ℕ → ℝ) (i h p : ℕ) : Fin 3 → ℝ :=
  (r i).invertApply (ipaOPtGlobal P N s z r mask i h p)

/-- `o_pt_norm = sqrt(sum(o_pt ** 2, dim=-1) + eps)`
(`_forward_o_pt_norm_eager` and its identical compiled variant). -/
def ipaOPtNorm (P : IpaParams) (N : ℕ) (s : Mat2) (z : Tensor3)
    (r : ℕ → RigidT) (mask : ℕ → ℝ) (i h p : ℕ) : ℝ :=
  Real.sqrt ((∑ x : Fin 3, ipaOPtLocal P N s z r mask i h p x ^ 2) + P.eps)

/-- `o_pair = torch.matmul(a.transpose(-2, -3), z)`:
`o_pair[i, h, c] = Σ_j a[h, i, j] * z[i, j, c]`. -/
def ipaOPair (P : IpaParams) (N : ℕ) (s : Mat2) (z : Tensor3)
    (r : ℕ → RigidT) (mask : ℕ → ℝ) (i h c : ℕ) : ℝ :=
  ∑ j ∈ Finset.range N, ipaAtt P N s z r mask h i j * z i j c

/-- `o_cat = torch.cat((o, *torch.unbind(o_pt, dim=-1), o_pt_norm,
o_pair), dim=-1)` with each block flattened over heads as in the
source's `reshape`s: segments of sizes `num_heads * c_hidden`, three of
`num_heads * num_v_points` (the coordinates), `num_heads * num_v_points`
(the norms), `num_heads * c_z`. -/
def ipaOCat (P : IpaParams) (N : ℕ) (s : Mat2) (z : Tensor3)
    (r : ℕ → RigidT) (mask : ℕ → ℝ) (i t : ℕ) : ℝ :=
  if t < P.numHeads * P.cHidden then
    ipaO P N s z r mask i (t / P.cHidden) (t % P.cHidden)
  else
    let t1 := t - P.numHeads * P.cHidden
    if t1 < P.numHeads * P.numVPoints then
      ipaOPtLocal P N s z r mask i (t1 / P.numVPoints) (t1 % P.numVPoints) 0
    else
      let t2 := t1 - P.numHeads * P.numVPoints
      if t2 < P.numHeads * P.numVPoints then
        ipaOPtLocal P N s z r mask i (t2 / P.numVPoints) (t2 % P.numVPoints) 1
      else
        let t3 := t2 - P.numHeads * P.numVPoints
        if t3 < P.numHeads * P.numVPoints then
          ipaOPtLocal P N s z r mask i (t3 / P.numVPoints) (t3 % P.numVPoints) 2
        else
          let t4 := t3 - P.numHeads * P.numVPoints
          if t4 < P.numHeads * P.numVPoints then
            ipaOPtNorm P N s z r mask i (t4 / P.numVPoints) (t4 % P.numVPoints)
          else
            let t5 := t4 - P.numHeads * P.numVPoints
            ipaOPair P N s z r mask i (t5 / P.cZ) (t5 % P.cZ)

/-- `s_update = self.linear_out(o_cat)`, with input width
`num_heads * (c_z + c_hidden + num_v_points * 4)`:
`InvariantPointAttention.forward`. -/
def ipaForward (P : IpaParams) (N : ℕ) (s : Mat2) (z : Tensor3)
    (r : ℕ → RigidT) (mask : ℕ → ℝ) (i d : ℕ) : ℝ :=
  linearRow P.wout P.bout
    (P.numHeads * (P.cZ + P.cHidden + P.numVPoints * 4))
    (ipaOCat P N s z r mask i) d

/-- C2: the pre-softmax IPA attention logit for head `h` and residue
pair `(i, j)` equals
`sqrt(1/(3*c_hidden)) * (q_i · k_j) + sqrt(1/3) * b[i, j, h]
 - 0.5 * softplus(head_weights[h]) * sqrt(1/(3*(num_qk_points*9/2)))
   * Σ_p ‖q_pts[i,h,p] - k_pts[j,h,p]‖²`
plus the mask bias `(mask_i * mask_j - 1) * inf`, and the attention
weights are the per-row softmax of exactly these logits over key
positions `j`. -/
theorem ipa_logits_formula (P : IpaParams) (N : ℕ) (s : Mat2)
    (z : Tensor3) (r : ℕ → RigidT) (mask : ℕ → ℝ) (h i j : ℕ) :
    (ipaAttLogits P s z r mask h i j
        = Real.sqrt (1 / (3 * (P.cHidden : ℝ))) *
            (∑ c ∈ Finset.range P.cHidden, ipaQ P s i h c * ipaK P s j h c)
          + Real.sqrt (1 / 3) * ipaBias P z i j h
          - 0.5 * softplus (P.headWeights h) *
              Real.sqrt (1 / (3 * ((P.numQkPoints : ℝ) * 9 / 2))) *
              (∑ p ∈ Finset.range P.numQkPoints,
                ∑ x : Fin 3,
                  (ipaQPts P s r i h p x - ipaKPts P s r j h p x) ^ 2)
          + (mask i * mask j - 1) * P.inf) ∧
      ipaAtt P N s z r mask h i j
        = Real.exp (ipaAttLogits P s z r mask h i j) /
            ∑ l ∈ Finset.range N, Real.exp (ipaAttLogits P s z r mask h i l) := by
  refine ⟨?_, rfl⟩
  unfold ipaAttLogits ipaPtAtt ipaHeadWeightsScaled ipaSquareMask ipaQK
    ipaPtAttSum
  rw [← Finset.sum_mul]
  ring

/-- Composing rigid transforms then applying is applying in sequence. -/
theorem RigidT.compose_apply (g r : RigidT) (p : Fin 3 → ℝ) :
    (g.compose r).apply p = g.apply (r.apply p) := by
  unfold RigidT.apply RigidT.compose
  rw [Matrix.mulVec_add, ← Matrix.mulVec_mulVec]
  abel_nf

/-- A matrix with orthonormal columns preserves the sum of squared
coordinates. -/
theorem mulVec_sum_sq (R : Matrix (Fin 3) (Fin 3) ℝ)
    (hg : R.transpose * R = 1) (d : Fin 3 → ℝ) :
    ∑ x : Fin 3, R.mulVec d x ^ 2 = ∑ x : Fin 3, d x ^ 2 := by
  have h1 : ∑ x : Fin 3, R.mulVec d x ^ 2
      = Matrix.dotProduct (R.mulVec d) (R.mulVec d) := by
    unfold Matrix.dotProduct
    exact Finset.sum_congr rfl (fun x _ => sq (R.mulVec d x))
  have h2 : ∑ x : Fin 3, d x ^ 2 = Matrix.dotProduct d d := by
    unfold Matrix.dotProduct
    exact Finset.sum_congr rfl (fun x _ => sq (d x))
  rw [h1, h2, Matrix.dotProduct_mulVec, ← Matrix.vecMul_transpose,
    Matrix.vecMul_vecMul, hg, Matrix.vecMul_one]

/-- Undoing a composite `g ∘ r` after applying `g` is undoing `r`, when
`g`'s rotation is orthogonal. -/
theorem RigidT.compose_invertApply (g r : RigidT)
    (hg : g.rot.transpose * g.rot = 1) (p : Fin 3 → ℝ) :
    (g.compose r).invertApply (g.apply p) = r.invertApply p := by
  unfold RigidT.invertApply RigidT.apply RigidT.compose
  have harg : g.rot.mulVec p + g.trans - (g.rot.mulVec r.trans + g.trans)
      = g.rot.mulVec (p - r.trans) := by
    rw [Matrix.mulVec_sub]
    abel_nf
  rw [harg, Matrix.transpose_mul, Matrix.mulVec_mulVec, mul_assoc, hg,
    mul_one]

/-- Each softmax row of the IPA attention weights sums to 1. -/
theorem ipaAtt_row_sum (P : IpaParams) (N : ℕ) (s : Mat2) (z : Tensor3)
    (r : ℕ → RigidT) (mask : ℕ → ℝ) (h i : ℕ) (hN : 0 < N) :
    ∑ j ∈ Finset.range N, ipaAtt P N s z r mask h i j = 1 := by
  unfold ipaAtt
  rw [← Finset.sum_div]
  exact div_self (ne_of_gt (Finset.sum_pos (fun l _ => Real.exp_pos _)
    (Finset.nonempty_range_iff.mpr hN.ne')))

/-- Query points under globally pre-composed frames are the `g`-image of
the original global query points. -/
theorem ipaQPts_compose (P : IpaParams) (s : Mat2) (r : ℕ → RigidT)
    (g : RigidT) (i h p : ℕ) :
    ipaQPts P s (fun j => g.compose (r j)) i h p
      = g.apply (ipaQPts P s r i h p) := by
  unfold ipaQPts ipaQPtsGlobal
  exact RigidT.compose_apply g (r i) _

/-- Key points under globally pre-composed frames. -/
theorem ipaKPts_compose (P : IpaParams) (s : Mat2) (r : ℕ → RigidT)
    (g : RigidT) (j h p : ℕ) :
    ipaKPts P s (fun l => g.compose (r l)) j h p
      = g.apply (ipaKPts P s r j h p) := by
  unfold ipaKPts ipaKvPtsGlobal
  exact RigidT.compose_apply g (r j) _

/-- Value points under globally pre-composed frames. -/
theorem ipaVPts_compose (P : IpaParams) (s : Mat2) (r : ℕ → RigidT)
    (g : RigidT) (j h p : ℕ) :
    ipaVPts P s (fun l => g.compose (r l)) j h p
      = g.apply (ipaVPts P s r j h p) := by
  unfold ipaVPts ipaKvPtsGlobal
  exact RigidT.compose_apply g (r j) _

/-- The squared distances between transformed query/key points are
invariant under a global rigid transform with orthogonal rotation. -/
theorem ipaPtAttSum_invariant (P : IpaParams) (s : Mat2) (r : ℕ → RigidT)
    (g : RigidT) (hg : g.rot.transpose * g.rot = 1) (i j h p : ℕ) :
    ipaPtAttSum P s (fun l => g.compose (r l)) i j h p
      = ipaPtAttSum P s r i j h p := by
  unfold ipaPtAttSum
  rw [ipaQPts_compose, ipaKPts_compose]
  have hsub : ∀ x : Fin 3,
      g.apply (ipaQPts P s r i h p) x - g.apply (ipaKPts P s r j h p) x
        = g.rot.mulVec (ipaQPts P s r i h p - ipaKPts P s r j h p) x := by
    intro x
    unfold RigidT.apply
    rw [Matrix.mulVec_sub]
    simp only [Pi.add_apply, Pi.sub_apply]
    ring
  calc
    ∑ x : Fin 3,
        (g.apply (ipaQPts P s r i h p) x - g.apply (ipaKPts P s r j h p) x) ^ 2
      = ∑ x : Fin 3,
          g.rot.mulVec (ipaQPts P s r i h p - ipaKPts P s r j h p) x ^ 2 :=
        Finset.sum_congr rfl fun x _ => by rw [hsub]
    _ = ∑ x : Fin 3, (ipaQPts P s r i h p - ipaKPts P s r j h p) x ^ 2 :=
        mulVec_sum_sq _ hg _
    _ = ∑ x : Fin 3, (ipaQPts P s r i h p x - ipaKPts P s r j h p x) ^ 2 := by
        simp only [Pi.sub_apply]

/-- The attention logits are invariant under a global rigid transform of
all frames. -/
theorem ipaAttLogits_invariant (P : IpaParams) (s : Mat2) (z : Tensor3)
    (r : ℕ → RigidT) (mask : ℕ → ℝ) (g : RigidT)
    (hg : g.rot.transpose * g.rot = 1) (h i j : ℕ) :
    ipaAttLogits P s z (fun l => g.compose (r l)) mask h i j
      = ipaAttLogits P s z r mask h i j := by
  have h1 : ipaPtAtt P s (fun l => g.compose (r l)) i j h
      = ipaPtAtt P s r i j h := by
    unfold ipaPtAtt
    congr 1
    exact Finset.sum_congr rfl fun p _ => by
      rw [ipaPtAttSum_invariant P s r g hg]
  unfold ipaAttLogits
  rw [h1]

/-- The softmax attention weights are invariant under a global rigid
transform of all frames. -/
theorem ipaAtt_invariant (P : IpaParams) (N : ℕ) (s : Mat2) (z : Tensor3)
    (r : ℕ → RigidT) (mask : ℕ → ℝ) (g : RigidT)
    (hg : g.rot.transpose * g.rot = 1) (h i j : ℕ) :
    ipaAtt P N s z (fun l => g.compose (r l)) mask h i j
      = ipaAtt P N s z r mask h i j := by
  unfold ipaAtt
  have hnum := ipaAttLogits_invariant P s z r mask g hg h i j
  have hden :
      ∑ l ∈ Finset.range N,
          Real.exp (ipaAttLogits P s z (fun l => g.compose (r l)) mask h i l)
        = ∑ l ∈ Finset.range N, Real.exp (ipaAttLogits P s z r mask h i l) :=
    Finset.sum_congr rfl fun l _ => by
      rw [ipaAttLogits_invariant P s z r mask g hg]
  rw [hnum, hden]

/-- The scalar output is invariant under a global rigid transform. -/
theorem ipaO_invariant (P : IpaParams) (N : ℕ) (s : Mat2) (z : Tensor3)
    (r : ℕ → RigidT) (mask : ℕ → ℝ) (g : RigidT)
    (hg : g.rot.transpose * g.rot = 1) (i h c : ℕ) :
    ipaO P N s z (fun l => g.compose (r l)) mask i h c
      = ipaO P N s z r mask i h c := by
  unfold ipaO
  exact Finset.sum_congr rfl fun j _ => by
    rw [ipaAtt_invariant P N s z r mask g hg]

/-- The pair output is invariant under a global rigid transform. -/
theorem ipaOPair_invariant (P : IpaParams) (N : ℕ) (s : Mat2) (z : Tensor3)
    (r : ℕ → RigidT) (mask : ℕ → ℝ) (g : RigidT)
    (hg : g.rot.transpose * g.rot = 1) (i h c : ℕ) :
    ipaOPair P N s z (fun l => g.compose (r l)) mask i h c
      = ipaOPair P N s z r mask i h c := by
  unfold ipaOPair
  exact Finset.sum_congr rfl fun j _ => by
    rw [ipaAtt_invariant P N s z r mask g hg]

/-- The attention-weighted global point output transforms equivariantly:
under frames `g ∘ r` it is the `g`-image of the original (using that the
softmax row sums to 1, so the translation passes through the weighted
sum). -/
theorem ipaOPtGlobal_compose (P : IpaParams) (N : ℕ) (s : Mat2)
    (z : Tensor3) (r : ℕ → RigidT) (mask : ℕ → ℝ) (g : RigidT)
    (hN : 0 < N) (hg : g.rot.transpose * g.rot = 1) (i h p : ℕ) :
    ipaOPtGlobal P N s z (fun l => g.compose (r l)) mask i h p
      = g.apply (ipaOPtGlobal P N s z r mask i h p) := by
  funext x
  unfold ipaOPtGlobal
  have hstep : ∀ j,
      ipaAtt P N s z (fun l => g.compose (r l)) mask h i j *
          ipaVPts P s (fun l => g.compose (r l)) j h p x
        = ipaAtt P N s z r mask h i j * g.apply (ipaVPts P s r j h p) x := by
    intro j
    rw [ipaAtt_invariant P N s z r mask g hg, ipaVPts_compose]
  rw [Finset.sum_congr rfl fun j _ => hstep j]
  unfold RigidT.apply
  simp only [Pi.add_apply, Matrix.mulVec, Matrix.dotProduct]
  calc
    ∑ j ∈ Finset.range N,
        ipaAtt P N s z r mask h i j *
          ((∑ w : Fin 3, g.rot x w * ipaVPts P s r j h p w) + g.trans x)
      = ∑ j ∈ Finset.range N,
          ((∑ w : Fin 3,
              ipaAtt P N s z r mask h i j * (g.rot x w * ipaVPts P s r j h p w))
            + ipaAtt P N s z r mask h i j * g.trans x) := by
        refine Finset.sum_congr rfl fun j _ => ?_
        rw [mul_add, Finset.mul_sum]
    _ = (∑ j ∈ Finset.range N, ∑ w : Fin 3,
            ipaAtt P N s z r mask h i j * (g.rot x w * ipaVPts P s r j h p w))
          + ∑ j ∈ Finset.range N, ipaAtt P N s z r mask h i j * g.trans x := by
        rw [Finset.sum_add_distrib]
    _ = (∑ w : Fin 3, ∑ j ∈ Finset.range N,
            ipaAtt P N s z r mask h i j * (g.rot x w * ipaVPts P s r j h p w))
          + (∑ j ∈ Finset.range N, ipaAtt P N s z r mask h i j) * g.trans x := by
        rw [Finset.sum_comm, ← Finset.sum_mul]
    _ = (∑ w : Fin 3,
            g.rot x w *
              ∑ j ∈ Finset.range N,
                ipaAtt P N s z r mask h i j * ipaVPts P s r j h p w)
          + g.trans x := by
        rw [ipaAtt_row_sum P N s z r mask h i hN, one_mul]
        congr 1
        refine Finset.sum_congr rfl fun w _ => ?_
        rw [Finset.mul_sum]
        exact Finset.sum_congr rfl fun j _ => by ring

/-- The local-frame point output is invariant under a global rigid
transform: the inverse of the composite frame undoes the `g`-image. -/
theorem ipaOPtLocal_invariant (P : IpaParams) (N : ℕ) (s : Mat2)
    (z : Tensor3) (r : ℕ → RigidT) (mask : ℕ → ℝ) (g : RigidT)
    (hN : 0 < N) (hg : g.rot.transpose * g.rot = 1) (i h p : ℕ) :
    ipaOPtLocal P N s z (fun l => g.compose (r l)) mask i h p
      = ipaOPtLocal P N s z r mask i h p := by
  unfold ipaOPtLocal
  rw [ipaOPtGlobal_compose P N s z r mask g hN hg]
  exact RigidT.compose_invertApply g (r i) hg _

/-- The point-norm output is invariant under a global rigid transform. -/
theorem ipaOPtNorm_invariant (P : IpaParams) (N : ℕ) (s : Mat2)
    (z : Tensor3) (r : ℕ → RigidT) (mask : ℕ → ℝ) (g : RigidT)
    (hN : 0 < N) (hg : g.rot.transpose * g.rot = 1) (i h p : ℕ) :
    ipaOPtNorm P N s z (fun l => g.compose (r l)) mask i h p
      = ipaOPtNorm P N s z r mask i h p := by
  unfold ipaOPtNorm
  rw [ipaOPtLocal_invariant P N s z r mask g hN hg]

/-- The concatenated output vector is invariant under a global rigid
transform. -/
theorem ipaOCat_invariant (P : IpaParams) (N : ℕ) (s : Mat2) (z : Tensor3)
    (r : ℕ → RigidT) (mask : ℕ → ℝ) (g : RigidT)
    (hN : 0 < N) (hg : g.rot.transpose * g.rot = 1) (i t : ℕ) :
    ipaOCat P N s z (fun l => g.compose (r l)) mask i t
      = ipaOCat P N s z r mask i t := by
  simp only [ipaOCat]
  split_ifs <;>
    first
      | rw [ipaO_invariant P N s z r mask g hg]
      | rw [ipaOPtLocal_invariant P N s z r mask g hN hg]
      | rw [ipaOPtNorm_invariant P N s z r mask g hN hg]
      | rw [ipaOPair_invariant P N s z r mask g hg]

/-- C1: `InvariantPointAttention.forward` is invariant under a global
rigid transform `g` (orthogonal rotation plus translation) applied
identically to all input frames and to no other input: for every `s`,
`z`, frames `r`, mask and output position, the update computed from the
frames `g ∘ r` equals the update computed from `r` (exact real
arithmetic). -/
theorem ipa_rigid_invariance (P : IpaParams) (N : ℕ) (s : Mat2)
    (z : Tensor3) (r : ℕ → RigidT) (mask : ℕ → ℝ) (g : RigidT)
    (hN : 0 < N) (hg : g.rot.transpose * g.rot = 1) (i d : ℕ) :
    ipaForward P N s z (fun j => g.compose (r j)) mask i d
      = ipaForward P N s z r mask i d := by
  have hfun : ipaOCat P N s z (fun j => g.compose (r j)) mask i
      = ipaOCat P N s z r mask i :=
    funext fun t => ipaOCat_invariant P N s z r mask g hN hg i t
  unfold ipaForward
  rw [hfun]

/-- C1 witness: the invariance theorem applied to a one-residue system
and the rigid transform with identity rotation and translation
`x ↦ x + 1`. -/
theorem ipa_rigid_invariance_witness :
    ipaForward
        ⟨1, 1, 1, 1, 1, 1, 100000, 0, fun _ _ => 0, fun _ => 0, fun _ _ => 0,
          fun _ => 0, fun _ _ => 0, fun _ => 0, fun _ _ => 0, fun _ => 0,
          fun _ _ => 0, fun _ => 0, fun _ => 0, fun _ _ => 0, fun _ => 0⟩
        1 (fun _ _ => 0) (fun _ _ _ => 0)
        (fun j =>
          RigidT.compose ⟨1, fun x => (x : ℝ) + 1⟩
            ((fun _ => (⟨1, fun _ => 0⟩ : RigidT)) j))
        (fun _ => 1) 0 0
      = ipaForward
          ⟨1, 1, 1, 1, 1, 1, 100000, 0, fun _ _ => 0, fun _ => 0, fun _ _ => 0,
            fun _ => 0, fun _ _ => 0, fun _ => 0, fun _ _ => 0, fun _ => 0,
            fun _ _ => 0, fun _ => 0, fun _ => 0, fun _ _ => 0, fun _ => 0⟩
          1 (fun _ _ => 0) (fun _ _ _ => 0) (fun _ => ⟨1, fun _ => 0⟩)
          (fun _ => 1) 0 0 :=
  ipa_rigid_invariance _ 1 _ _ _ _ ⟨1, fun x => (x : ℝ) + 1⟩ (by norm_num)
    (by simp) 0 0

/-! ### Masked-position noninterference (C7)

The mask bias uses a finite "safe infinity" `self.inf`; exact real
arithmetic therefore leaves an `exp(-inf)`-sized leak through the
softmax.  "Up to floating-point tolerance" is formalised as the limit
`inf → ∞`: the forward outputs at a valid row converge, and the limits
of the original and the perturbed run coincide. -/

open Filter

/-- The module with its safe-infinity constant replaced (all learned
parameters and shape hyperparameters unchanged). -/
def setInf (P : IpaParams) (I : ℝ) : IpaParams := { P with inf := I }

theorem setInf_cHidden (P : IpaParams) (I : ℝ) :
    (setInf P I).cHidden = P.cHidden := rfl

theorem setInf_numHeads (P : IpaParams) (I : ℝ) :
    (setInf P I).numHeads = P.numHeads := rfl

theorem setInf_numVPoints (P : IpaParams) (I : ℝ) :
    (setInf P I).numVPoints = P.numVPoints := rfl

theorem setInf_cZ (P : IpaParams) (I : ℝ) : (setInf P I).cZ = P.cZ := rfl

theorem setInf_wout (P : IpaParams) (I : ℝ) :
    (setInf P I).wout = P.wout := rfl

theorem setInf_bout (P : IpaParams) (I : ℝ) :
    (setInf P I).bout = P.bout := rfl

/-- The inf-independent part of the attention logits: everything except
the mask bias. -/
def ipaBase (P : IpaParams) (s : Mat2) (z : Tensor3) (r : ℕ → RigidT)
    (h i j : ℕ) : ℝ :=
  Real.sqrt (1 / (3 * (P.cHidden : ℝ))) * ipaQK P s h i j
    + Real.sqrt (1 / 3) * ipaBias P z i j h
    + ipaPtAtt P s r i j h

/-- Splitting the logits of the inf-substituted module into the
inf-independent base and the mask bias. -/
theorem ipaAttLogits_setInf (P : IpaParams) (I : ℝ) (s : Mat2)
    (z : Tensor3) (r : ℕ → RigidT) (mask : ℕ → ℝ) (h i j : ℕ) :
    ipaAttLogits (setInf P I) s z r mask h i j
      = ipaBase P s z r h i j + (mask i * mask j - 1) * I := rfl

/-- Limit of the softmax denominator at row `i` as `inf → ∞`: only the
valid key positions survive. -/
def ipaDenLimit (P : IpaParams) (N : ℕ) (s : Mat2) (z : Tensor3)
    (r : ℕ → RigidT) (mask : ℕ → ℝ) (h i : ℕ) : ℝ :=
  ∑ l ∈ Finset.range N,
    if mask l = 1 then Real.exp (ipaBase P s z r h i l) else 0

/-- Limit of the attention weight `a[h, i, j]` at a valid row `i` as
`inf → ∞`: the masked softmax that ignores invalid key positions. -/
def ipaAttLimit (P : IpaParams) (N : ℕ) (s : Mat2) (z : Tensor3)
    (r : ℕ → RigidT) (mask : ℕ → ℝ) (h i j : ℕ) : ℝ :=
  if mask j = 1 then
    Real.exp (ipaBase P s z r h i j) / ipaDenLimit P N s z r mask h i
  else 0

/-- The limiting denominator is positive at a valid in-range row. -/
theorem ipaDenLimit_pos (P : IpaParams) (N : ℕ) (s : Mat2) (z : Tensor3)
    (r : ℕ → RigidT) (mask : ℕ → ℝ) (h i : ℕ) (hiN : i < N)
    (hi : mask i = 1) : 0 < ipaDenLimit P N s z r mask h i := by
  unfold ipaDenLimit
  refine Finset.sum_pos' (fun l _ => ?_) ⟨i, Finset.mem_range.mpr hiN, ?_⟩
  · by_cases hl : mask l = 1 <;> simp [hl, Real.exp_pos, le_of_lt]
  · simp [hi, Real.exp_pos]

/-- `exp (b - I) → 0` as `I → ∞`. -/
theorem tendsto_exp_base_sub (b : ℝ) :
    Tendsto (fun I : ℝ => Real.exp (b + -I)) atTop (nhds 0) :=
  Real.tendsto_exp_atBot.comp
    (tendsto_atBot_add_const_left atTop b tendsto_neg_atTop_atBot)

/-- As `inf → ∞`, the attention weight at a valid in-range row `i`
converges to the masked softmax `ipaAttLimit`. -/
theorem tendsto_ipaAtt (P : IpaParams) (N : ℕ) (s : Mat2) (z : Tensor3)
    (r : ℕ → RigidT) (mask : ℕ → ℝ)
    (hmask : ∀ l, l < N → mask l = 0 ∨ mask l = 1) (i : ℕ) (hiN : i < N)
    (hi : mask i = 1) (h j : ℕ) (hj : j < N) :
    Tendsto (fun I => ipaAtt (setInf P I) N s z r mask h i j) atTop
      (nhds (ipaAttLimit P N s z r mask h i j)) := by
  unfold ipaAtt
  have hden : Tendsto
      (fun I => ∑ l ∈ Finset.range N,
        Real.exp (ipaAttLogits (setInf P I) s z r mask h i l)) atTop
      (nhds (ipaDenLimit P N s z r mask h i)) := by
    unfold ipaDenLimit
    refine tendsto_finset_sum _ fun l hl => ?_
    have hlog : ∀ I : ℝ, ipaAttLogits (setInf P I) s z r mask h i l
        = ipaBase P s z r h i l + (mask l - 1) * I := by
      intro I; rw [ipaAttLogits_setInf, hi, one_mul]
    rcases hmask l (Finset.mem_range.mp hl) with h0 | h1
    · rw [if_neg (show ¬mask l = 1 by rw [h0]; norm_num)]
      have hfun : ∀ I : ℝ, ipaBase P s z r h i l + (mask l - 1) * I
          = ipaBase P s z r h i l + -I := by intro I; rw [h0]; ring
      simp only [hlog, hfun]
      exact tendsto_exp_base_sub _
    · rw [if_pos h1]
      have hfun : ∀ I : ℝ, ipaBase P s z r h i l + (mask l - 1) * I
          = ipaBase P s z r h i l := by intro I; rw [h1]; ring
      simp only [hlog, hfun]
      exact tendsto_const_nhds
  have hne := ne_of_gt (ipaDenLimit_pos P N s z r mask h i hiN hi)
  have hlogj : ∀ I : ℝ, ipaAttLogits (setInf P I) s z r mask h i j
      = ipaBase P s z r h i j + (mask j - 1) * I := by
    intro I; rw [ipaAttLogits_setInf, hi, one_mul]
  rcases hmask j hj with hj0 | hj1
  · have hval : ipaAttLimit P N s z r mask h i j = 0 := by
      unfold ipaAttLimit
      rw [if_neg (show ¬mask j = 1 by rw [hj0]; norm_num)]
    rw [hval]
    have hnum : Tendsto
        (fun I => Real.exp (ipaAttLogits (setInf P I) s z r mask h i j))
        atTop (nhds 0) := by
      have hfun : ∀ I : ℝ, ipaBase P s z r h i j + (mask j - 1) * I
          = ipaBase P s z r h i j + -I := by intro I; rw [hj0]; ring
      simp only [hlogj, hfun]
      exact tendsto_exp_base_sub _
    have H := hnum.div hden hne
    rwa [zero_div] at H
  · have hval : ipaAttLimit P N s z r mask h i j
        = Real.exp (ipaBase P s z r h i j) /
            ipaDenLimit P N s z r mask h i := by
      unfold ipaAttLimit
      rw [if_pos hj1]
    rw [hval]
    have hnum : Tendsto
        (fun I => Real.exp (ipaAttLogits (setInf P I) s z r mask h i j))
        atTop (nhds (Real.exp (ipaBase P s z r h i j))) := by
      have hfun : ∀ I : ℝ, ipaBase P s z r h i j + (mask j - 1) * I
          = ipaBase P s z r h i j := by intro I; rw [hj1]; ring
      simp only [hlogj, hfun]
      exact tendsto_const_nhds
    exact hnum.div hden hne

theorem setInf_eps (P : IpaParams) (I : ℝ) : (setInf P I).eps = P.eps := rfl

theorem ipaV_setInf (P : IpaParams) (I : ℝ) (s : Mat2) (j h c : ℕ) :
    ipaV (setInf P I) s j h c = ipaV P s j h c := rfl

theorem ipaVPts_setInf (P : IpaParams) (I : ℝ) (s : Mat2) (r : ℕ → RigidT)
    (j h p : ℕ) : ipaVPts (setInf P I) s r j h p = ipaVPts P s r j h p := rfl

/-- Limit of the scalar output `o[i, h, c]` as `inf → ∞`. -/
def ipaOLimit (P : IpaParams) (N : ℕ) (s : Mat2) (z : Tensor3)
    (r : ℕ → RigidT) (mask : ℕ → ℝ) (i h c : ℕ) : ℝ :=
  ∑ j ∈ Finset.range N, ipaAttLimit P N s z r mask h i j * ipaV P s j h c

/-- Limit of the global-frame point output as `inf → ∞`. -/
def ipaOPtGlobalLimit (P : IpaParams) (N : ℕ) (s : Mat2) (z : Tensor3)
    (r : ℕ → RigidT) (mask : ℕ → ℝ) (i h p : ℕ) : Fin 3 → ℝ :=
  fun x =>
    ∑ j ∈ Finset.range N,
      ipaAttLimit P N s z r mask h i j * ipaVPts P s r j h p x

/-- Limit of the local-frame point output as `inf → ∞`. -/
def ipaOPtLocalLimit (P : IpaParams) (N : ℕ) (s : Mat2) (z : Tensor3)
    (r : ℕ → RigidT) (mask : ℕ → ℝ) (i h p : ℕ) : Fin 3 → ℝ :=
  (r i).invertApply (ipaOPtGlobalLimit P N s z r mask i h p)

/-- Limit of the point-norm output as `inf → ∞`. -/
def ipaOPtNormLimit (P : IpaParams) (N : ℕ) (s : Mat2) (z : Tensor3)
    (r : ℕ → RigidT) (mask : ℕ → ℝ) (i h p : ℕ) : ℝ :=
  Real.sqrt
    ((∑ x : Fin 3, ipaOPtLocalLimit P N s z r mask i h p x ^ 2) + P.eps)

/-- Limit of the pair output as `inf → ∞`. -/
def ipaOPairLimit (P : IpaParams) (N : ℕ) (s : Mat2) (z : Tensor3)
    (r : ℕ → RigidT) (mask : ℕ → ℝ) (i h c : ℕ) : ℝ :=
  ∑ j ∈ Finset.range N, ipaAttLimit P N s z r mask h i j * z i j c

/-- Limit of the concatenated output vector as `inf → ∞`. -/
def ipaOCatLimit (P : IpaParams) (N : ℕ) (s : Mat2) (z : Tensor3)
    (r : ℕ → RigidT) (mask : ℕ → ℝ) (i t : ℕ) : ℝ :=
  if t < P.numHeads * P.cHidden then
    ipaOLimit P N s z r mask i (t / P.cHidden) (t % P.cHidden)
  else
    let t1 := t - P.numHeads * P.cHidden
    if t1 < P.numHeads * P.numVPoints then
      ipaOPtLocalLimit P N s z r mask i (t1 / P.numVPoints) (t1 % P.numVPoints) 0
    else
      let t2 := t1 - P.numHeads * P.numVPoints
      if t2 < P.numHeads * P.numVPoints then
        ipaOPtLocalLimit P N s z r mask i (t2 / P.numVPoints)
          (t2 % P.numVPoints) 1
      else
        let t3 := t2 - P.numHeads * P.numVPoints
        if t3 < P.numHeads * P.numVPoints then
          ipaOPtLocalLimit P N s z r mask i (t3 / P.numVPoints)
            (t3 % P.numVPoints) 2
        else
          let t4 := t3 - P.numHeads * P.numVPoints
          if t4 < P.numHeads * P.numVPoints then
            ipaOPtNormLimit P N s z r mask i (t4 / P.numVPoints)
              (t4 % P.numVPoints)
          else
            let t5 := t4 - P.numHeads * P.numVPoints
            ipaOPairLimit P N s z r mask i (t5 / P.cZ) (t5 % P.cZ)

/-- Limit of the forward output as `inf → ∞`. -/
def ipaForwardLimit (P : IpaParams) (N : ℕ) (s : Mat2) (z : Tensor3)
    (r : ℕ → RigidT) (mask : ℕ → ℝ) (i d : ℕ) : ℝ :=
  linearRow P.wout P.bout
    (P.numHeads * (P.cZ + P.cHidden + P.numVPoints * 4))
    (ipaOCatLimit P N s z r mask i) d

/-- Convergence of the scalar output at a valid row. -/
theorem tendsto_ipaO (P : IpaParams) (N : ℕ) (s : Mat2) (z : Tensor3)
    (r : ℕ → RigidT) (mask : ℕ → ℝ)
    (hmask : ∀ l, l < N → mask l = 0 ∨ mask l = 1) (i : ℕ) (hiN : i < N)
    (hi : mask i = 1) (h c : ℕ) :
    Tendsto (fun I => ipaO (setInf P I) N s z r mask i h c) atTop
      (nhds (ipaOLimit P N s z r mask i h c)) := by
  unfold ipaO ipaOLimit
  simp only [ipaV_setInf]
  exact tendsto_finset_sum _ fun j hj =>
    (tendsto_ipaAtt P N s z r mask hmask i hiN hi h j
      (Finset.mem_range.mp hj)).mul_const _

/-- Convergence of the pair output at a valid row. -/
theorem tendsto_ipaOPair (P : IpaParams) (N : ℕ) (s : Mat2) (z : Tensor3)
    (r : ℕ → RigidT) (mask : ℕ → ℝ)
    (hmask : ∀ l, l < N → mask l = 0 ∨ mask l = 1) (i : ℕ) (hiN : i < N)
    (hi : mask i = 1) (h c : ℕ) :
    Tendsto (fun I => ipaOPair (setInf P I) N s z r mask i h c) atTop
      (nhds (ipaOPairLimit P N s z r mask i h c)) := by
  unfold ipaOPair ipaOPairLimit
  exact tendsto_finset_sum _ fun j hj =>
    (tendsto_ipaAtt P N s z r mask hmask i hiN hi h j
      (Finset.mem_range.mp hj)).mul_const _

/-- Convergence of the global point output at a valid row. -/
theorem tendsto_ipaOPtGlobal (P : IpaParams) (N : ℕ) (s : Mat2)
    (z : Tensor3) (r : ℕ → RigidT) (mask : ℕ → ℝ)
    (hmask : ∀ l, l < N → mask l = 0 ∨ mask l = 1) (i : ℕ) (hiN : i < N)
    (hi : mask i = 1) (h p : ℕ) (x : Fin 3) :
    Tendsto (fun I => ipaOPtGlobal (setInf P I) N s z r mask i h p x) atTop
      (nhds (ipaOPtGlobalLimit P N s z r mask i h p x)) := by
  unfold ipaOPtGlobal ipaOPtGlobalLimit
  simp only [ipaVPts_setInf]
  exact tendsto_finset_sum _ fun j hj =>
    (tendsto_ipaAtt P N s z r mask hmask i hiN hi h j
      (Finset.mem_range.mp hj)).mul_const _

/-- Convergence of the local point output at a valid row. -/
theorem tendsto_ipaOPtLocal (P : IpaParams) (N : ℕ) (s : Mat2)
    (z : Tensor3) (r : ℕ → RigidT) (mask : ℕ → ℝ)
    (hmask : ∀ l, l < N → mask l = 0 ∨ mask l = 1) (i : ℕ) (hiN : i < N)
    (hi : mask i = 1) (h p : ℕ) (x : Fin 3) :
    Tendsto (fun I => ipaOPtLocal (setInf P I) N s z r mask i h p x) atTop
      (nhds (ipaOPtLocalLimit P N s z r mask i h p x)) := by
  unfold ipaOPtLocal ipaOPtLocalLimit RigidT.invertApply
  simp only [Matrix.mulVec, Matrix.dotProduct, Pi.sub_apply]
  exact tendsto_finset_sum _ fun w _ =>
    Tendsto.const_mul _
      ((tendsto_ipaOPtGlobal P N s z r mask hmask i hiN hi h p w).sub
        tendsto_const_nhds)

/-- Convergence of the point-norm output at a valid row. -/
theorem tendsto_ipaOPtNorm (P : IpaParams) (N : ℕ) (s : Mat2)
    (z : Tensor3) (r : ℕ → RigidT) (mask : ℕ → ℝ)
    (hmask : ∀ l, l < N → mask l = 0 ∨ mask l = 1) (i : ℕ) (hiN : i < N)
    (hi : mask i = 1) (h p : ℕ) :
    Tendsto (fun I => ipaOPtNorm (setInf P I) N s z r mask i h p) atTop
      (nhds (ipaOPtNormLimit P N s z r mask i h p)) := by
  unfold ipaOPtNorm ipaOPtNormLimit
  simp only [setInf_eps]
  have hinner : Tendsto
      (fun I =>
        (∑ x : Fin 3, ipaOPtLocal (setInf P I) N s z r mask i h p x ^ 2)
          + P.eps) atTop
      (nhds
        ((∑ x : Fin 3, ipaOPtLocalLimit P N s z r mask i h p x ^ 2)
          + P.eps)) :=
    (tendsto_finset_sum _ fun x _ =>
      (tendsto_ipaOPtLocal P N s z r mask hmask i hiN hi h p x).pow 2).add
      tendsto_const_nhds
  exact (Real.continuous_sqrt.tendsto _).comp hinner

/-- Convergence of the concatenated output vector at a valid row. -/
theorem tendsto_ipaOCat (P : IpaParams) (N : ℕ) (s : Mat2) (z : Tensor3)
    (r : ℕ → RigidT) (mask : ℕ → ℝ)
    (hmask : ∀ l, l < N → mask l = 0 ∨ mask l = 1) (i : ℕ) (hiN : i < N)
    (hi : mask i = 1) (t : ℕ) :
    Tendsto (fun I => ipaOCat (setInf P I) N s z r mask i t) atTop
      (nhds (ipaOCatLimit P N s z r mask i t)) := by
  simp only [ipaOCat, ipaOCatLimit, setInf_numHeads, setInf_cHidden,
    setInf_numVPoints, setInf_cZ]
  by_cases h1 : t < P.numHeads * P.cHidden
  · simp only [if_pos h1]
    exact tendsto_ipaO P N s z r mask hmask i hiN hi _ _
  · simp only [if_neg h1]
    by_cases h2 : t - P.numHeads * P.cHidden < P.numHeads * P.numVPoints
    · simp only [if_pos h2]
      exact tendsto_ipaOPtLocal P N s z r mask hmask i hiN hi _ _ 0
    · simp only [if_neg h2]
      by_cases h3 : t - P.numHeads * P.cHidden - P.numHeads * P.numVPoints
          < P.numHeads * P.numVPoints
      · simp only [if_pos h3]
        exact tendsto_ipaOPtLocal P N s z r mask hmask i hiN hi _ _ 1
      · simp only [if_neg h3]
        by_cases h4 : t - P.numHeads * P.cHidden - P.numHeads * P.numVPoints
            - P.numHeads * P.numVPoints < P.numHeads * P.numVPoints
        · simp only [if_pos h4]
          exact tendsto_ipaOPtLocal P N s z r mask hmask i hiN hi _ _ 2
        · simp only [if_neg h4]
          by_cases h5 : t - P.numHeads * P.cHidden
              - P.numHeads * P.numVPoints - P.numHeads * P.numVPoints
              - P.numHeads * P.numVPoints < P.numHeads * P.numVPoints
          · simp only [if_pos h5]
            exact tendsto_ipaOPtNorm P N s z r mask hmask i hiN hi _ _
          · simp only [if_neg h5]
            exact tendsto_ipaOPair P N s z r mask hmask i hiN hi _ _

/-- Convergence of the full forward output at a valid row. -/
theorem tendsto_ipaForward (P : IpaParams) (N : ℕ) (s : Mat2) (z : Tensor3)
    (r : ℕ → RigidT) (mask : ℕ → ℝ)
    (hmask : ∀ l, l < N → mask l = 0 ∨ mask l = 1) (i : ℕ) (hiN : i < N)
    (hi : mask i = 1) (d : ℕ) :
    Tendsto (fun I => ipaForward (setInf P I) N s z r mask i d) atTop
      (nhds (ipaForwardLimit P N s z r mask i d)) := by
  simp only [ipaForward, ipaForwardLimit, linearRow, setInf_numHeads,
    setInf_cHidden, setInf_numVPoints, setInf_cZ, setInf_wout, setInf_bout]
  exact (tendsto_finset_sum _ fun t _ =>
    Tendsto.const_mul _
      (tendsto_ipaOCat P N s z r mask hmask i hiN hi t)).add
    tendsto_const_nhds

/-- `q[i]` depends only on row `i` of `s`. -/
theorem ipaQ_congr (P : IpaParams) (s s' : Mat2) (i : ℕ)
    (hsi : s' i = s i) (h c : ℕ) : ipaQ P s' i h c = ipaQ P s i h c := by
  unfold ipaQ ipaQFlat
  rw [hsi]

/-- `k[j]` depends only on row `j` of `s`. -/
theorem ipaK_congr (P : IpaParams) (s s' : Mat2) (j : ℕ)
    (hsj : s' j = s j) (h c : ℕ) : ipaK P s' j h c = ipaK P s j h c := by
  unfold ipaK ipaKvFlat
  rw [hsj]

/-- `v[j]` depends only on row `j` of `s`. -/
theorem ipaV_congr (P : IpaParams) (s s' : Mat2) (j : ℕ)
    (hsj : s' j = s j) (h c : ℕ) : ipaV P s' j h c = ipaV P s j h c := by
  unfold ipaV ipaKvFlat
  rw [hsj]

/-- `q_pts[i]` depends only on row `i` of `s` and frame `i`. -/
theorem ipaQPts_congr (P : IpaParams) (s s' : Mat2) (r r' : ℕ → RigidT)
    (i : ℕ) (hsi : s' i = s i) (hri : r' i = r i) (h p : ℕ) :
    ipaQPts P s' r' i h p = ipaQPts P s r i h p := by
  unfold ipaQPts ipaQPtsGlobal ipaQPtsLocal ipaQPtsFlat
  simp only [hsi, hri]

/-- `k_pts[j]` depends only on row `j` of `s` and frame `j`. -/
theorem ipaKPts_congr (P : IpaParams) (s s' : Mat2) (r r' : ℕ → RigidT)
    (j : ℕ) (hsj : s' j = s j) (hrj : r' j = r j) (h p : ℕ) :
    ipaKPts P s' r' j h p = ipaKPts P s r j h p := by
  unfold ipaKPts ipaKvPtsGlobal ipaKvPtsLocal ipaKvPtsFlat
  simp only [hsj, hrj]

/-- `v_pts[j]` depends only on row `j` of `s` and frame `j`. -/
theorem ipaVPts_congr (P : IpaParams) (s s' : Mat2) (r r' : ℕ → RigidT)
    (j : ℕ) (hsj : s' j = s j) (hrj : r' j = r j) (h p : ℕ) :
    ipaVPts P s' r' j h p = ipaVPts P s r j h p := by
  unfold ipaVPts ipaKvPtsGlobal ipaKvPtsLocal ipaKvPtsFlat
  simp only [hsj, hrj]

/-- The inf-free logit base at `(i, l)` depends only on rows `i`, `l`. -/
theorem ipaBase_congr (P : IpaParams) (s s' : Mat2) (z : Tensor3)
    (r r' : ℕ → RigidT) (h i l : ℕ) (hsi : s' i = s i) (hri : r' i = r i)
    (hsl : s' l = s l) (hrl : r' l = r l) :
    ipaBase P s' z r' h i l = ipaBase P s z r h i l := by
  have hqk : ipaQK P s' h i l = ipaQK P s h i l := by
    unfold ipaQK
    exact Finset.sum_congr rfl fun c _ => by
      rw [ipaQ_congr P s s' i hsi, ipaK_congr P s s' l hsl]
  have hpt : ipaPtAtt P s' r' i l h = ipaPtAtt P s r i l h := by
    unfold ipaPtAtt
    congr 1
    refine Finset.sum_congr rfl fun p _ => ?_
    unfold ipaPtAttSum
    rw [ipaQPts_congr P s s' r r' i hsi hri,
      ipaKPts_congr P s s' r r' l hsl hrl]
  unfold ipaBase
  rw [hqk, hpt]

/-- The limiting denominator at a valid row ignores the masked row's
data. -/
theorem ipaDenLimit_congr (P : IpaParams) (N : ℕ) (s s' : Mat2)
    (z : Tensor3) (r r' : ℕ → RigidT) (mask : ℕ → ℝ) (j0 : ℕ)
    (hj0 : mask j0 = 0) (hs : ∀ l, l ≠ j0 → s' l = s l)
    (hr : ∀ l, l ≠ j0 → r' l = r l) (h i : ℕ) (hine : i ≠ j0) :
    ipaDenLimit P N s' z r' mask h i = ipaDenLimit P N s z r mask h i := by
  unfold ipaDenLimit
  refine Finset.sum_congr rfl fun l _ => ?_
  by_cases hml : mask l = 1
  · have hlne : l ≠ j0 := fun e => by rw [e, hj0] at hml; norm_num at hml
    rw [if_pos hml, if_pos hml,
      ipaBase_congr P s s' z r r' h i l (hs i hine) (hr i hine)
        (hs l hlne) (hr l hlne)]
  · rw [if_neg hml, if_neg hml]

/-- The limiting attention weight at a valid row ignores the masked
row's data. -/
theorem ipaAttLimit_congr (P : IpaParams) (N : ℕ) (s s' : Mat2)
    (z : Tensor3) (r r' : ℕ → RigidT) (mask : ℕ → ℝ) (j0 : ℕ)
    (hj0 : mask j0 = 0) (hs : ∀ l, l ≠ j0 → s' l = s l)
    (hr : ∀ l, l ≠ j0 → r' l = r l) (h i j : ℕ) (hine : i ≠ j0) :
    ipaAttLimit P N s' z r' mask h i j = ipaAttLimit P N s z r mask h i j := by
  unfold ipaAttLimit
  by_cases hmj : mask j = 1
  · have hjne : j ≠ j0 := fun e => by rw [e, hj0] at hmj; norm_num at hmj
    rw [if_pos hmj, if_pos hmj,
      ipaBase_congr P s s' z r r' h i j (hs i hine) (hr i hine)
        (hs j hjne) (hr j hjne),
      ipaDenLimit_congr P N s s' z r r' mask j0 hj0 hs hr h i hine]
  · rw [if_neg hmj, if_neg hmj]

/-- The limiting scalar output at a valid row ignores the masked row. -/
theorem ipaOLimit_congr (P : IpaParams) (N : ℕ) (s s' : Mat2) (z : Tensor3)
    (r r' : ℕ → RigidT) (mask : ℕ → ℝ) (j0 : ℕ) (hj0 : mask j0 = 0)
    (hs : ∀ l, l ≠ j0 → s' l = s l) (hr : ∀ l, l ≠ j0 → r' l = r l)
    (i : ℕ) (hine : i ≠ j0) (h c : ℕ) :
    ipaOLimit P N s' z r' mask i h c = ipaOLimit P N s z r mask i h c := by
  unfold ipaOLimit
  refine Finset.sum_congr rfl fun j _ => ?_
  by_cases hmj : mask j = 1
  · have hjne : j ≠ j0 := fun e => by rw [e, hj0] at hmj; norm_num at hmj
    rw [ipaAttLimit_congr P N s s' z r r' mask j0 hj0 hs hr h i j hine,
      ipaV_congr P s s' j (hs j hjne)]
  · have e1 : ipaAttLimit P N s' z r' mask h i j = 0 := by
      unfold ipaAttLimit
      rw [if_neg hmj]
    have e2 : ipaAttLimit P N s z r mask h i j = 0 := by
      unfold ipaAttLimit
      rw [if_neg hmj]
    rw [e1, e2, zero_mul, zero_mul]

/-- The limiting pair output at a valid row ignores the masked row. -/
theorem ipaOPairLimit_congr (P : IpaParams) (N : ℕ) (s s' : Mat2)
    (z : Tensor3) (r r' : ℕ → RigidT) (mask : ℕ → ℝ) (j0 : ℕ)
    (hj0 : mask j0 = 0) (hs : ∀ l, l ≠ j0 → s' l = s l)
    (hr : ∀ l, l ≠ j0 → r' l = r l) (i : ℕ) (hine : i ≠ j0) (h c : ℕ) :
    ipaOPairLimit P N s' z r' mask i h c
      = ipaOPairLimit P N s z r mask i h c := by
  unfold ipaOPairLimit
  refine Finset.sum_congr rfl fun j _ => ?_
  by_cases hmj : mask j = 1
  · rw [ipaAttLimit_congr P N s s' z r r' mask j0 hj0 hs hr h i j hine]
  · have e1 : ipaAttLimit P N s' z r' mask h i j = 0 := by
      unfold ipaAttLimit
      rw [if_neg hmj]
    have e2 : ipaAttLimit P N s z r mask h i j = 0 := by
      unfold ipaAttLimit
      rw [if_neg hmj]
    rw [e1, e2, zero_mul]

/-- The limiting global point output at a valid row ignores the masked
row. -/
theorem ipaOPtGlobalLimit_congr (P : IpaParams) (N : ℕ) (s s' : Mat2)
    (z : Tensor3) (r r' : ℕ → RigidT) (mask : ℕ → ℝ) (j0 : ℕ)
    (hj0 : mask j0 = 0) (hs : ∀ l, l ≠ j0 → s' l = s l)
    (hr : ∀ l, l ≠ j0 → r' l = r l) (i : ℕ) (hine : i ≠ j0) (h p : ℕ) :
    ipaOPtGlobalLimit P N s' z r' mask i h p
      = ipaOPtGlobalLimit P N s z r mask i h p := by
  funext x
  unfold ipaOPtGlobalLimit
  refine Finset.sum_congr rfl fun j _ => ?_
  by_cases hmj : mask j = 1
  · have hjne : j ≠ j0 := fun e => by rw [e, hj0] at hmj; norm_num at hmj
    rw [ipaAttLimit_congr P N s s' z r r' mask j0 hj0 hs hr h i j hine,
      ipaVPts_congr P s s' r r' j (hs j hjne) (hr j hjne)]
  · have e1 : ipaAttLimit P N s' z r' mask h i j = 0 := by
      unfold ipaAttLimit
      rw [if_neg hmj]
    have e2 : ipaAttLimit P N s z r mask h i j = 0 := by
      unfold ipaAttLimit
      rw [if_neg hmj]
    rw [e1, e2, zero_mul, zero_mul]

/-- The limiting local point output at a valid row ignores the masked
row. -/
theorem ipaOPtLocalLimit_congr (P : IpaParams) (N : ℕ) (s s' : Mat2)
    (z : Tensor3) (r r' : ℕ → RigidT) (mask : ℕ → ℝ) (j0 : ℕ)
    (hj0 : mask j0 = 0) (hs : ∀ l, l ≠ j0 → s' l = s l)
    (hr : ∀ l, l ≠ j0 → r' l = r l) (i : ℕ) (hine : i ≠ j0) (h p : ℕ) :
    ipaOPtLocalLimit P N s' z r' mask i h p
      = ipaOPtLocalLimit P N s z r mask i h p := by
  unfold ipaOPtLocalLimit
  rw [hr i hine,
    ipaOPtGlobalLimit_congr P N s s' z r r' mask j0 hj0 hs hr i hine h p]

/-- The limiting point norm at a valid row ignores the masked row. -/
theorem ipaOPtNormLimit_congr (P : IpaParams) (N : ℕ) (s s' : Mat2)
    (z : Tensor3) (r r' : ℕ → RigidT) (mask : ℕ → ℝ) (j0 : ℕ)
    (hj0 : mask j0 = 0) (hs : ∀ l, l ≠ j0 → s' l = s l)
    (hr : ∀ l, l ≠ j0 → r' l = r l) (i : ℕ) (hine : i ≠ j0) (h p : ℕ) :
    ipaOPtNormLimit P N s' z r' mask i h p
      = ipaOPtNormLimit P N s z r mask i h p := by
  unfold ipaOPtNormLimit
  rw [ipaOPtLocalLimit_congr P N s s' z r r' mask j0 hj0 hs hr i hine h p]

/-- The limiting concatenated output at a valid row ignores the masked
row. -/
theorem ipaOCatLimit_congr (P : IpaParams) (N : ℕ) (s s' : Mat2)
    (z : Tensor3) (r r' : ℕ → RigidT) (mask : ℕ → ℝ) (j0 : ℕ)
    (hj0 : mask j0 = 0) (hs : ∀ l, l ≠ j0 → s' l = s l)
    (hr : ∀ l, l ≠ j0 → r' l = r l) (i : ℕ) (hine : i ≠ j0) (t : ℕ) :
    ipaOCatLimit P N s' z r' mask i t = ipaOCatLimit P N s z r mask i t := by
  simp only [ipaOCatLimit]
  split_ifs <;>
    first
      | rw [ipaOLimit_congr P N s s' z r r' mask j0 hj0 hs hr i hine]
      | rw [ipaOPtLocalLimit_congr P N s s' z r r' mask j0 hj0 hs hr i hine]
      | rw [ipaOPtNormLimit_congr P N s s' z r r' mask j0 hj0 hs hr i hine]
      | rw [ipaOPairLimit_congr P N s s' z r r' mask j0 hj0 hs hr i hine]

/-- The limiting forward output at a valid row ignores the masked row. -/
theorem ipaForwardLimit_congr (P : IpaParams) (N : ℕ) (s s' : Mat2)
    (z : Tensor3) (r r' : ℕ → RigidT) (mask : ℕ → ℝ) (j0 : ℕ)
    (hj0 : mask j0 = 0) (hs : ∀ l, l ≠ j0 → s' l = s l)
    (hr : ∀ l, l ≠ j0 → r' l = r l) (i : ℕ) (hine : i ≠ j0) (d : ℕ) :
    ipaForwardLimit P N s' z r' mask i d
      = ipaForwardLimit P N s z r mask i d := by
  have hfun : ipaOCatLimit P N s' z r' mask i = ipaOCatLimit P N s z r mask i :=
    funext fun t =>
      ipaOCatLimit_congr P N s s' z r r' mask j0 hj0 hs hr i hine t
  unfold ipaForwardLimit
  rw [hfun]

/-- C7: when residue `j0`'s mask entry is 0, perturbing row `j0` of `s`
and frame `j0` of `r` arbitrarily does not change the forward output at
any valid row `i` (with `mask i = 1`), in the limit `inf → ∞` that
formalises "up to floating-point tolerance": the difference between the
perturbed and the original run tends to 0. -/
theorem ipa_masked_noninterference (P : IpaParams) (N : ℕ) (s s' : Mat2)
    (z : Tensor3) (r r' : ℕ → RigidT) (mask : ℕ → ℝ) (j0 i d : ℕ)
    (hmask : ∀ l, l < N → mask l = 0 ∨ mask l = 1) (hj0 : mask j0 = 0)
    (hi : mask i = 1) (hiN : i < N) (hs : ∀ l, l ≠ j0 → s' l = s l)
    (hr : ∀ l, l ≠ j0 → r' l = r l) :
    Tendsto
      (fun I => ipaForward (setInf P I) N s' z r' mask i d
        - ipaForward (setInf P I) N s z r mask i d) atTop (nhds 0) := by
  have hine : i ≠ j0 := fun e => by rw [e, hj0] at hi; norm_num at hi
  have h1 := tendsto_ipaForward P N s' z r' mask hmask i hiN hi d
  have h2 := tendsto_ipaForward P N s z r mask hmask i hiN hi d
  have heq := ipaForwardLimit_congr P N s s' z r r' mask j0 hj0 hs hr i hine d
  have h3 := h1.sub h2
  rw [heq, sub_self] at h3
  exact h3

/-- C7 witness: the noninterference theorem at a two-residue system with
residue 1 masked out and its `s` row and frame perturbed. -/
theorem ipa_masked_noninterference_witness :
    Tendsto
      (fun I =>
        ipaForward
            (setInf
              ⟨1, 1, 1, 1, 1, 1, 0, 0, fun _ _ => 0, fun _ => 0,
                fun _ _ => 0, fun _ => 0, fun _ _ => 0, fun _ => 0,
                fun _ _ => 0, fun _ => 0, fun _ _ => 0, fun _ => 0,
                fun _ => 0, fun _ _ => 0, fun _ => 0⟩ I)
            2 (fun l _ => if l = 1 then 5 else 0) (fun _ _ _ => 0)
            (fun l =>
              if l = 1 then (⟨1, fun _ => 3⟩ : RigidT) else ⟨1, fun _ => 0⟩)
            (fun l => if l = 1 then 0 else 1) 0 0
          - ipaForward
              (setInf
                ⟨1, 1, 1, 1, 1, 1, 0, 0, fun _ _ => 0, fun _ => 0,
                  fun _ _ => 0, fun _ => 0, fun _ _ => 0, fun _ => 0,
                  fun _ _ => 0, fun _ => 0, fun _ _ => 0, fun _ => 0,
                  fun _ => 0, fun _ _ => 0, fun _ => 0⟩ I)
              2 (fun _ _ => 0) (fun _ _ _ => 0)
              (fun _ => (⟨1, fun _ => 0⟩ : RigidT))
              (fun l => if l = 1 then 0 else 1) 0 0) atTop (nhds 0) :=
  ipa_masked_noninterference
    ⟨1, 1, 1, 1, 1, 1, 0, 0, fun _ _ => 0, fun _ => 0, fun _ _ => 0,
      fun _ => 0, fun _ _ => 0, fun _ => 0, fun _ _ => 0, fun _ => 0,
      fun _ _ => 0, fun _ => 0, fun _ => 0, fun _ _ => 0, fun _ => 0⟩
    2 (fun _ _ => 0) (fun l _ => if l = 1 then 5 else 0) (fun _ _ _ => 0)
    (fun _ => ⟨1, fun _ => 0⟩)
    (fun l => if l = 1 then ⟨1, fun _ => 3⟩ else ⟨1, fun _ => 0⟩)
    (fun l => if l = 1 then 0 else 1) 1 0 0
    (by intro l hl; interval_cases l <;> simp) (by simp) (by simp)
    (by norm_num) (by intro l hl; funext d; simp [hl])
    (by intro l hl; simp [hl])
